import Mathlib

/-!
A verification development for NQPV (Nondeterministic Quantum Program
Verifier).

NQPV's semantic kernel turns a parsed, scoped proof term into a verdict by
backward predicate transformation over sets of Hermitian operators, with a
numeric Löwner-order test.  The kernel itself is not shipped with the
repository snapshot (only its documentation, evaluation notebook and example
programs are), so the definitions below are modelled from the specification:
each such definition carries a doc comment starting `Modelled from the spec:`.

Operators are modelled as matrices over the ordered ring ℚ[√2] (every gate and
predicate appearing in the preloaded library and in the checked claims has
entries in this ring), placements as injections of qubit positions into the
register, and the SDP order test as an exact positive-semidefiniteness
decision (the ε shift by `SDP_PRECISION` and the solver's feasibility
tolerance, also `SDP_PRECISION`, cancel).
-/

-- The arithmetic of `Rat` in the standard library is `@[irreducible]`; the
-- concrete verdict computations below are evaluated by `decide`, which needs
-- these definitions to unfold.  (This only changes elaborator-side
-- reducibility; kernel checking is unaffected.)
unseal Rat.add Rat.mul Rat.sub Rat.inv Rat.ofScientific

/-- Modelled from the spec: the scalar ring of operator entries.  `⟨a, b⟩`
represents the real number `a + b·√2`; the gates and predicates of the
preloaded library (`I, X, H, P0, P1, Zero, M10`, …) all have entries of this
form, and arithmetic on them is exact. -/
structure Q2 where
  a : ℚ
  b : ℚ
deriving DecidableEq, Repr

namespace Q2

theorem ext_ab : ∀ {x y : Q2}, x.a = y.a → x.b = y.b → x = y := by
  intro ⟨xa, xb⟩ ⟨ya, yb⟩ h1 h2
  simp_all

instance : Zero Q2 := ⟨⟨0, 0⟩⟩
instance : One Q2 := ⟨⟨1, 0⟩⟩
instance : Add Q2 := ⟨fun x y => ⟨x.a + y.a, x.b + y.b⟩⟩
instance : Neg Q2 := ⟨fun x => ⟨-x.a, -x.b⟩⟩
instance : Mul Q2 := ⟨fun x y => ⟨x.a * y.a + 2 * x.b * y.b, x.a * y.b + x.b * y.a⟩⟩

@[simp] theorem zero_a : (0 : Q2).a = 0 := rfl
@[simp] theorem zero_b : (0 : Q2).b = 0 := rfl
@[simp] theorem one_a : (1 : Q2).a = 1 := rfl
@[simp] theorem one_b : (1 : Q2).b = 0 := rfl
@[simp] theorem add_a (x y : Q2) : (x + y).a = x.a + y.a := rfl
@[simp] theorem add_b (x y : Q2) : (x + y).b = x.b + y.b := rfl
@[simp] theorem neg_a (x : Q2) : (-x).a = -x.a := rfl
@[simp] theorem neg_b (x : Q2) : (-x).b = -x.b := rfl
@[simp] theorem mul_a (x y : Q2) : (x * y).a = x.a * y.a + 2 * x.b * y.b := rfl
@[simp] theorem mul_b (x y : Q2) : (x * y).b = x.a * y.b + x.b * y.a := rfl

instance : CommRing Q2 where
  add_assoc x y z := ext_ab (by simp; ring) (by simp; ring)
  zero_add x := ext_ab (by simp) (by simp)
  add_zero x := ext_ab (by simp) (by simp)
  add_comm x y := ext_ab (by simp; ring) (by simp; ring)
  neg_add_cancel x := ext_ab (by simp) (by simp)
  mul_assoc x y z := ext_ab (by simp; ring) (by simp; ring)
  one_mul x := ext_ab (by simp) (by simp)
  mul_one x := ext_ab (by simp) (by simp)
  left_distrib x y z := ext_ab (by simp; ring) (by simp; ring)
  right_distrib x y z := ext_ab (by simp; ring) (by simp; ring)
  mul_comm x y := ext_ab (by simp; ring) (by simp; ring)
  zero_mul x := ext_ab (by simp) (by simp)
  mul_zero x := ext_ab (by simp) (by simp)
  nsmul n x := ⟨n * x.a, n * x.b⟩
  nsmul_zero x := ext_ab (by simp) (by simp)
  nsmul_succ n x := ext_ab (by simp; ring) (by simp; ring)
  zsmul n x := ⟨n * x.a, n * x.b⟩
  zsmul_zero' x := ext_ab (by simp) (by simp)
  zsmul_succ' n x := ext_ab (by push_cast; simp; ring) (by push_cast; simp; ring)
  zsmul_neg' n x := ext_ab (by push_cast; simp; ring) (by push_cast; simp; ring)

/-- Embedding of the rationals (used for tolerance values) into the scalars. -/
def ofRat (q : ℚ) : Q2 := ⟨q, 0⟩

/-- Multiplicative inverse `(a + b√2)⁻¹ = (a - b√2)/(a² - 2b²)`; total with
junk value at `0` (in ℚ the denominator vanishes only at `0`). -/
def inv (x : Q2) : Q2 :=
  ⟨x.a / (x.a ^ 2 - 2 * x.b ^ 2), -x.b / (x.a ^ 2 - 2 * x.b ^ 2)⟩

/-- The predicate `nonneg ⟨a, b⟩` holds exactly when the real number `a + b·√2` is
nonnegative, phrased so that it is decidable over ℚ. -/
def nonneg (x : Q2) : Prop :=
  (0 ≤ x.a ∧ 0 ≤ x.b) ∨
  (x.a < 0 ∧ 0 ≤ x.b ∧ x.a ^ 2 ≤ 2 * x.b ^ 2) ∨
  (0 ≤ x.a ∧ x.b < 0 ∧ 2 * x.b ^ 2 ≤ x.a ^ 2)

instance : DecidablePred nonneg := fun x => by unfold nonneg; infer_instance

end Q2

open Matrix

/-! ## Registers, indices, matrices -/

/-- Modelled from the spec: a basis index of the Hilbert space of an `n`-qubit
register, one bit per (named) qubit position. -/
abbrev Idx (n : ℕ) := Fin n → Bool

/-- Modelled from the spec: an operator on an `n`-qubit register, as a dense
matrix over ℚ[√2] indexed by basis vectors (the rank-2n tensor of the source,
with the ket axes fused into the row index and the bra axes into the column
index). -/
abbrev Mat (n : ℕ) := Matrix (Idx n) (Idx n) Q2

instance {n : ℕ} : DecidableEq (Mat n) :=
  inferInstanceAs (DecidableEq (Idx n → Idx n → Q2))

/-- Modelled from the spec: a predicate set (assertion): a finite list of
Hermitian operators already extended to the full register. -/
abbrev PredSet (n : ℕ) := List (Mat n)

/-- Explicit enumeration of all basis indices of an `n`-qubit register. -/
def allIdx : (n : ℕ) → List (Idx n)
  | 0 => [fun i => i.elim0]
  | n + 1 => (allIdx n).flatMap fun f => [Fin.cons false f, Fin.cons true f]

/-! ## The positive-semidefiniteness decision (the SDP feasibility kernel) -/

/-- Modelled from the spec: the exact feasibility decision underlying the
`A ⊑ B` test (§4.2).  The SDP solver decides whether a matrix is positive
semidefinite; over exact ℚ[√2] arithmetic this is decided by recursive
diagonal pivoting (Schur complements), processing the index list `l`. -/
def psdList {ι : Type} [DecidableEq ι] : List ι → Matrix ι ι Q2 → Bool
  | [], _ => true
  | t :: rest, M =>
    let d := M t t
    if d = 0 then
      (rest.all fun j => decide (M t j = 0) && decide (M j t = 0)) && psdList rest M
    else if Q2.nonneg d then
      psdList rest (Matrix.of fun i j => M i j - M i t * Q2.inv d * M t j)
    else false

/-- Positive semidefiniteness decision for a register matrix. -/
def psdB {n : ℕ} (M : Mat n) : Bool := psdList (allIdx n) M

/-! ## Settings and scopes -/

/-- Modelled from the spec: the settings record carried by each scope
(§3): `EPS` (equality tolerance), `SDP_PRECISION` (solver tolerance),
`SILENT`, `IDENTICAL_VAR_CHECK`, `OPT_PRESERVING`.  The two float tolerances
are modelled as rationals. -/
structure Settings where
  eps : ℚ
  sdpPrecision : ℚ
  silent : Bool
  identicalVarCheck : Bool
  optPreserving : Bool
deriving DecidableEq, Repr

/-- Modelled from the spec: the default settings of the global scope
(`EPS : 1e-07 ; SDP precision : 1e-09 ; SILENT : True` in the README's
`show global` output). -/
def defaultSettings : Settings :=
  ⟨1 / 10000000, 1 / 1000000000, true, true, true⟩

/-- Replace the `EPS` field of a settings record. -/
def setEps (s : Settings) (e : ℚ) : Settings :=
  ⟨e, s.sdpPrecision, s.silent, s.identicalVarCheck, s.optPreserving⟩

/-- Modelled from the spec: a scope carries its settings; the remaining
bindings (operators, proofs, sub-scopes) are irrelevant to the tolerance
claims and are kept abstract as a list of bound names. -/
structure Scope where
  settings : Settings
  boundNames : List String
deriving Repr

/-- Modelled from the spec: the global scope opened when a `.nqpv` file is
processed; it starts with the default settings. -/
def globalScope : Scope := ⟨defaultSettings, []⟩

/-- Modelled from the spec: creating a sub-scope; a scope inherits settings
from its parent at creation (§4.6). -/
def mkSubScope (parent : Scope) : Scope := ⟨parent.settings, []⟩

/-- Modelled from the spec: a `setting` command updates one field of the
current scope's settings record, locally. -/
inductive SettingCmd
  | epsCmd (v : ℚ)
  | sdpCmd (v : ℚ)
  | silentCmd (v : Bool)

/-- Apply a `setting` command to a scope. -/
def applySetting (sc : Scope) : SettingCmd → Scope
  | .epsCmd v => ⟨⟨v, sc.settings.sdpPrecision, sc.settings.silent,
      sc.settings.identicalVarCheck, sc.settings.optPreserving⟩, sc.boundNames⟩
  | .sdpCmd v => ⟨⟨sc.settings.eps, v, sc.settings.silent,
      sc.settings.identicalVarCheck, sc.settings.optPreserving⟩, sc.boundNames⟩
  | .silentCmd v => ⟨⟨sc.settings.eps, sc.settings.sdpPrecision, v,
      sc.settings.identicalVarCheck, sc.settings.optPreserving⟩, sc.boundNames⟩

/-! ## The Löwner order test -/

/-- A scalar matrix `c·I` on the register. -/
def scalMat {n : ℕ} (c : ℚ) : Mat n :=
  Matrix.of fun i j => if i = j then Q2.ofRat c else 0

/-- Modelled from the spec: the matrix of the semidefinite feasibility
problem posed for the question `A ⊑ B` (§4.2): the single variable is
`X = B − A − ε·I` with `X ⪰ 0`, where the shift `ε` is `SDP_PRECISION`
(and is independent of `EPS`). -/
def sdpProblem {n : ℕ} (A B : Mat n) (s : Settings) : Mat n :=
  B - A - scalMat s.sdpPrecision

/-- Modelled from the spec: the order test `A ⊑ B`.  The posed problem
`sdpProblem` is handed to the solver, which certifies feasibility up to its
own tolerance `SDP_PRECISION` (a solution with residual below tolerance
returns true); the ε shift and the solver tolerance cancel, so over exact
arithmetic the test accepts exactly when `B − A` is positive semidefinite. -/
def leTest {n : ℕ} (s : Settings) (A B : Mat n) : Bool :=
  psdB (sdpProblem A B s + scalMat s.sdpPrecision)

/-- Modelled from the spec: entailment of predicate sets (§4.3), the
pointwise test `∀ H ∈ T. ∃ H' ∈ S. H' ⊑ H`. -/
def entails {n : ℕ} (s : Settings) (S T : PredSet n) : Bool :=
  T.all fun H => S.any fun Hp => leTest s Hp H

/-- Modelled from the spec: predicate-set equality, decided as entailment in
both directions (§4.2). -/
def eqSet {n : ℕ} (s : Settings) (S T : PredSet n) : Bool :=
  entails s S T && entails s T S

/-! ## Cylindrical extension -/

/-- Position of a register qubit inside a placement: `invIdx pos t` is the
placement slot mapping to register position `t`, if any. -/
def invIdx {m n : ℕ} (pos : Fin m → Fin n) (t : Fin n) : Option (Fin m) :=
  (List.finRange m).find? fun sl => decide (pos sl = t)

/-- Restriction of a register index to a placement. -/
def subIdx {m n : ℕ} (pos : Fin m → Fin n) (i : Idx n) : Idx m :=
  fun sl => i (pos sl)

/-- Two register indices agree outside a placement. -/
def offAgree {m n : ℕ} (pos : Fin m → Fin n) (i j : Idx n) : Prop :=
  ∀ t, invIdx pos t = none → i t = j t

instance {m n : ℕ} (pos : Fin m → Fin n) (i j : Idx n) :
    Decidable (offAgree pos i j) := by unfold offAgree; infer_instance

/-- Modelled from the spec: cylindrical extension (§4.1): an operator on the
qubits selected by the placement `pos`, tensored with the identity on the
remaining qubits of the register and permuted to the register's qubit order
(the name-directed index permutation is absorbed by the position map). -/
def extend {m n : ℕ} (pos : Fin m → Fin n) (A : Matrix (Idx m) (Idx m) Q2) : Mat n :=
  Matrix.of fun i j => if offAgree pos i j then A (subIdx pos i) (subIdx pos j) else 0

/-- Override a register index on the placement positions with a placement
index (the inverse of restriction, keeping the rest of `i`). -/
def overrideIdx {m n : ℕ} (pos : Fin m → Fin n) (i : Idx n) (k : Idx m) : Idx n :=
  fun t =>
    match invIdx pos t with
    | some sl => k sl
    | none => i t

/-! ## Program AST and the backward predicate transformer -/

/-- Modelled from the spec: the typed statement tree (§3), with every
operator reference already resolved to an operator value plus a placement
(an assignment of placement slots to register positions).  `choice` and
`seq` are binary here; the surface k-ary forms are `choiceN`/`seqN` below.
`prfref` is the sentence form that cites a previously proven proof term,
resolved to its established pre- and postconditions at the instantiated
qubits (README §sentence grammar). -/
inductive Stmt (n : ℕ) : Type
  | skip : Stmt n
  | abort : Stmt n
  | init (m : ℕ) (pos : Fin m → Fin n) : Stmt n
  | unitary (m : ℕ) (pos : Fin m → Fin n) (U : Matrix (Idx m) (Idx m) Q2) : Stmt n
  | ifstmt (m : ℕ) (pos : Fin m → Fin n) (M0 M1 : Matrix (Idx m) (Idx m) Q2)
      (s1 s2 : Stmt n) : Stmt n
  | whilestmt (m : ℕ) (pos : Fin m → Fin n) (M0 M1 : Matrix (Idx m) (Idx m) Q2)
      (J : PredSet n) (body : Stmt n) : Stmt n
  | choice (s1 s2 : Stmt n) : Stmt n
  | seq (s1 s2 : Stmt n) : Stmt n
  | prfref (P Q : PredSet n) : Stmt n

/-- The k-ary nondeterministic choice `(S₁ # S₂ # … # Sₖ)` of the surface
language, as nested binary choices. -/
def choiceN {n : ℕ} : Stmt n → List (Stmt n) → Stmt n
  | s, [] => s
  | s, t :: rest => .choice s (choiceN t rest)

/-- Modelled from the spec: the reset map of the `init(q̄)` rule (§4.4):
`H ↦ Σₖ |k⟩⟨0|_q̄ · H · |0⟩⟨k|_q̄`, with each `|0⟩⟨k|` placed on `q̄` and
cylindrically extended. -/
def ket0bra {m : ℕ} (k : Idx m) : Matrix (Idx m) (Idx m) Q2 :=
  Matrix.stdBasisMatrix (fun _ => false) k 1

/-- The sandwich `Σₖ Kₖᵀ · H · Kₖ` for the init rule, `Kₖ = |0⟩⟨k|` extended. -/
def initSand {m n : ℕ} (pos : Fin m → Fin n) (H : Mat n) : Mat n :=
  ∑ k : Idx m, (extend pos (ket0bra k))ᵀ * H * extend pos (ket0bra k)

/-- Modelled from the spec: the Cartesian combination of the measurement
rule (§4.4): `{E₀ᵀ·h₁·E₀ + E₁ᵀ·h₂·E₁ : h₁ ∈ A, h₂ ∈ B}`. -/
def sandwichPairs {n : ℕ} (E0 E1 : Mat n) (A B : PredSet n) : PredSet n :=
  A.flatMap fun h1 => B.map fun h2 => E0ᵀ * h1 * E0 + E1ᵀ * h2 * E1

/-- Modelled from the spec: the exit-branch sandwich of the while rule
(§4.4): `{E₀ᵀ·q·E₀ : q ∈ Q}`. -/
def exitSet {n : ℕ} (E0 : Mat n) (Q : PredSet n) : PredSet n :=
  Q.map fun q => E0ᵀ * q * E0

/-- Failure kinds of the transformer: a loop invariant failed one of its
checks, or a cited proof term's postcondition does not entail the goal. -/
inductive WpFail
  | invariantFailed
  | proofRefMismatch
deriving DecidableEq, Repr

instance {ε α : Type} [DecidableEq ε] [DecidableEq α] : DecidableEq (Except ε α) :=
  fun x y =>
    match x, y with
    | .ok v, .ok w => decidable_of_iff (v = w) (by simp)
    | .error v, .error w => decidable_of_iff (v = w) (by simp)
    | .ok _, .error _ => isFalse (by simp)
    | .error _, .ok _ => isFalse (by simp)

/-- Modelled from the spec: the backward predicate transformer `wp(S, Q)`
(§4.4), one rule per statement.  The while rule computes `wp(body, J)` for
the supplied invariant set `J`, checks the preservation entailment
`J ⊑ {M₀ᵀ·Q'·M₀ + M₁ᵀ·J'·M₁}` and the exit entailment against `J`, and
yields `J`; any failure is terminal. -/
def wp {n : ℕ} (st : Settings) : Stmt n → PredSet n → Except WpFail (PredSet n)
  | .skip, Q => .ok Q
  | .abort, Q => .ok [1]
  | .init _ pos, Q => .ok (Q.map (initSand pos))
  | .unitary _ pos U, Q => .ok (Q.map fun H => (extend pos U)ᵀ * H * extend pos U)
  | .ifstmt _ pos M0 M1 s1 s2, Q => do
      let W1 ← wp st s1 Q
      let W2 ← wp st s2 Q
      .ok (sandwichPairs (extend pos M0) (extend pos M1) W1 W2)
  | .whilestmt _ pos M0 M1 J body, Q => do
      let WB ← wp st body J
      if entails st J (sandwichPairs (extend pos M0) (extend pos M1) Q WB) &&
         entails st (exitSet (extend pos M0) Q) J
      then .ok J else .error .invariantFailed
  | .choice s1 s2, Q => do
      let W1 ← wp st s1 Q
      let W2 ← wp st s2 Q
      .ok (W1 ++ W2)
  | .seq s1 s2, Q => do
      let Qmid ← wp st s2 Q
      wp st s1 Qmid
  | .prfref P Qpost, Q =>
      if entails st Qpost Q then .ok P else .error .proofRefMismatch

/-- Does a statement contain a while loop? -/
def hasWhile {n : ℕ} : Stmt n → Bool
  | .ifstmt _ _ _ _ s1 s2 => hasWhile s1 || hasWhile s2
  | .whilestmt _ _ _ _ _ _ => true
  | .choice s1 s2 => hasWhile s1 || hasWhile s2
  | .seq s1 s2 => hasWhile s1 || hasWhile s2
  | _ => false

/-- Does a statement contain a proof-term reference? -/
def hasPrfref {n : ℕ} : Stmt n → Bool
  | .ifstmt _ _ _ _ s1 s2 => hasPrfref s1 || hasPrfref s2
  | .whilestmt _ _ _ _ _ body => hasPrfref body
  | .choice s1 s2 => hasPrfref s1 || hasPrfref s2
  | .seq s1 s2 => hasPrfref s1 || hasPrfref s2
  | .prfref _ _ => true
  | _ => false

/-! ## The verifier driver -/

/-- Modelled from the spec: a proof term (§3): a register (of width `n`),
a precondition set, the program body (the top-level sequence of sentences),
and a postcondition set. -/
structure ProofTerm (n : ℕ) where
  pre : PredSet n
  body : List (Stmt n)
  post : PredSet n

/-- Modelled from the spec: the driver's walk over the body: computes the
weakest precondition of the top-level sequence together with the proof
outline, the list of `(statement, precondition, postcondition)` triples in
program order (§4.5, §6). -/
def wpSeqO {n : ℕ} (st : Settings) :
    List (Stmt n) → PredSet n →
      Except WpFail (PredSet n × List (Stmt n × PredSet n × PredSet n))
  | [], Q => .ok (Q, [])
  | s :: rest, Q => do
      let pr ← wpSeqO st rest Q
      let W ← wp st s pr.1
      .ok (W, (s, W, pr.1) :: pr.2)

/-- The weakest precondition of a proof-term body. -/
def wpBody {n : ℕ} (st : Settings) (l : List (Stmt n)) (Q : PredSet n) :
    Except WpFail (PredSet n) :=
  (wpSeqO st l Q).map Prod.fst

/-- The proof outline of a proof-term body. -/
def outlineBody {n : ℕ} (st : Settings) (l : List (Stmt n)) (Q : PredSet n) :
    Except WpFail (List (Stmt n × PredSet n × PredSet n)) :=
  (wpSeqO st l Q).map Prod.snd

/-- Does a body contain a while loop? -/
def hasWhileBody {n : ℕ} (l : List (Stmt n)) : Bool := l.any hasWhile

/-- Does a body contain a proof-term reference? -/
def hasPrfrefBody {n : ℕ} (l : List (Stmt n)) : Bool := l.any hasPrfref

/-- Modelled from the spec: the verdicts of the driver (§4.5), plus the
terminal error outcome for a failed proof-term citation (§7 SemanticError;
it is not one of the three verdicts). -/
inductive Verdict
  | holds
  | doesNotHold
  | undetermined
  | refError
deriving DecidableEq, Repr

/-- Modelled from the spec: the verifier driver (§4.5).  It computes
`wp(body, post)`; an invariant failure makes the property undetermined
(README: the failure is reported and the property cannot be determined);
otherwise the verdict is `holds` when the stated precondition entails the
computed precondition, `does-not-hold` when the entailment fails and the
program is loop-free, and `undetermined` when it fails with a while
present. -/
def verify {n : ℕ} (st : Settings) (pt : ProofTerm n) : Verdict :=
  match wpBody st pt.body pt.post with
  | .error .invariantFailed => .undetermined
  | .error .proofRefMismatch => .refError
  | .ok W =>
      if entails st pt.pre W then .holds
      else if hasWhileBody pt.body then .undetermined
      else .doesNotHold

/-! ## The preloaded operator library (the fragment used by the claims) -/

/-- The 1-qubit basis index `|0⟩`. -/
def idx0 : Idx 1 := fun _ => false

/-- The 1-qubit basis index `|1⟩`. -/
def idx1 : Idx 1 := fun _ => true

/-- Modelled from the spec: the preloaded Hermitian predicate `P0 = |0⟩⟨0|`. -/
def matP0 : Mat 1 := Matrix.of fun i j => if i = idx0 ∧ j = idx0 then 1 else 0

/-- Modelled from the spec: the preloaded Hermitian predicate `P1 = |1⟩⟨1|`. -/
def matP1 : Mat 1 := Matrix.of fun i j => if i = idx1 ∧ j = idx1 then 1 else 0

/-- Modelled from the spec: the preloaded Pauli `X` gate. -/
def matX : Mat 1 := Matrix.of fun i j => if i = j then 0 else 1

/-- The scalar `√2/2 = 1/√2`. -/
def rhalf : Q2 := ⟨0, 1 / 2⟩

/-- Modelled from the spec: the preloaded Hadamard gate `H`. -/
def matH : Mat 1 := Matrix.of fun i j => if i = idx1 ∧ j = idx1 then -rhalf else rhalf

/-- Modelled from the spec: the preloaded zero predicate `Zero`. -/
def matZero : Mat 1 := 0

/-- The trivial placement of a 1-qubit operator on a 1-qubit register. -/
def posId1 : Fin 1 → Fin 1 := fun t => t

/-- Modelled from the spec: the measurement `M10` in the computational
basis; the outcome-0 operator (the loop-exit branch) projects onto `|0⟩`,
the outcome-1 operator onto `|1⟩`. -/
def m10fst : Mat 1 := matP0

/-- The outcome-1 component of the measurement `M10`. -/
def m10snd : Mat 1 := matP1

/-! ## The concrete proof terms of the end-to-end scenarios -/

/-- Modelled from the spec: scenario 2 — program `q *= X` with precondition
`{P0[q]}` and postcondition `{P0[q]}`. -/
def ptX : ProofTerm 1 := ⟨[matP0], [.unitary 1 posId1 matX], [matP0]⟩

/-- Modelled from the spec: scenario 3 — `{inv: I[q]}; while M10[q] do
q *= H end` with precondition `{I[q]}` and postcondition `{P0[q]}`. -/
def ptLoopI : ProofTerm 1 :=
  ⟨[(1 : Mat 1)],
   [.whilestmt 1 posId1 m10fst m10snd [(1 : Mat 1)] (.unitary 1 posId1 matH)],
   [matP0]⟩

/-- Modelled from the spec: scenario 4 — the same loop with the weak
invariant `{inv: Zero[q]}`. -/
def ptLoopZero : ProofTerm 1 :=
  ⟨[(1 : Mat 1)],
   [.whilestmt 1 posId1 m10fst m10snd [matZero] (.unitary 1 posId1 matH)],
   [matP0]⟩

/-! ## Semantic (mathematical) positive semidefiniteness -/

/-- The quadratic form `vᵀ·M·v` of a register matrix. -/
def quadF {n : ℕ} (M : Mat n) (v : Idx n → Q2) : Q2 :=
  dotProduct v (M.mulVec v)

/-- Mathematical positive semidefiniteness: every quadratic form value is a
nonnegative element of ℚ[√2]. -/
def PSDsem {n : ℕ} (M : Mat n) : Prop := ∀ v, Q2.nonneg (quadF M v)

/-- A matrix is Hermitian (the entries are real, so this is symmetry). -/
def hermM {n : ℕ} (M : Mat n) : Prop := Mᵀ = M

/-- Modelled from the spec: a valid Hermitian predicate: Hermitian and in
the Löwner interval `[0, I]`. -/
def hermInUnit {n : ℕ} (M : Mat n) : Prop :=
  hermM M ∧ PSDsem M ∧ PSDsem (1 - M)

/-! ## Well-formed statements -/

/-- Modelled from the spec: well-formedness of a (resolved) statement, the
facts established by the semantic analysis and operator classification
before transformation: placements are duplicate-free (injective position
maps), unitaries satisfy `UᵀU = I`, measurement pairs satisfy
`M₀ᵀM₀ + M₁ᵀM₁ = I`, supplied invariant sets consist of valid Hermitian
predicates, and cited proofs have valid precondition sets. -/
inductive Wf {n : ℕ} : Stmt n → Prop
  | skip : Wf .skip
  | abort : Wf .abort
  | init (m : ℕ) (pos : Fin m → Fin n) (hinj : Function.Injective pos) :
      Wf (.init m pos)
  | unitary (m : ℕ) (pos : Fin m → Fin n) (U : Matrix (Idx m) (Idx m) Q2)
      (hinj : Function.Injective pos) (hU : Uᵀ * U = 1) :
      Wf (.unitary m pos U)
  | ifstmt (m : ℕ) (pos : Fin m → Fin n) (M0 M1 : Matrix (Idx m) (Idx m) Q2)
      (s1 s2 : Stmt n) (hinj : Function.Injective pos)
      (hM : M0ᵀ * M0 + M1ᵀ * M1 = 1) (h1 : Wf s1) (h2 : Wf s2) :
      Wf (.ifstmt m pos M0 M1 s1 s2)
  | whilestmt (m : ℕ) (pos : Fin m → Fin n) (M0 M1 : Matrix (Idx m) (Idx m) Q2)
      (J : PredSet n) (body : Stmt n) (hinj : Function.Injective pos)
      (hM : M0ᵀ * M0 + M1ᵀ * M1 = 1) (hJ : ∀ H ∈ J, hermInUnit H)
      (hb : Wf body) : Wf (.whilestmt m pos M0 M1 J body)
  | choice (s1 s2 : Stmt n) (h1 : Wf s1) (h2 : Wf s2) : Wf (.choice s1 s2)
  | seq (s1 s2 : Stmt n) (h1 : Wf s1) (h2 : Wf s2) : Wf (.seq s1 s2)
  | prfref (P Q : PredSet n) (hP : ∀ H ∈ P, hermInUnit H) : Wf (.prfref P Q)

/-! ## The surface language and its semantic analysis -/

/-- A surface reference to a placed Hermitian operator: an operator name
and a qubit identifier list. -/
abbrev HermRef := String × List String

/-- Modelled from the spec: the surface sentence grammar (README): skip,
abort, initialization, unitary transformation, if, while (with invariant),
nondeterministic choice, citation of a former proof, and an intermediate
predicate. -/
inductive SStmt : Type
  | skip : SStmt
  | abort : SStmt
  | init (qs : List String) : SStmt
  | unitary (qs : List String) (g : String) : SStmt
  | ifstmt (g : String) (qs : List String) (b1 b2 : SStmt) : SStmt
  | whilestmt (inv : List HermRef) (g : String) (qs : List String) (b : SStmt) : SStmt
  | choice (b1 b2 : SStmt) : SStmt
  | seq (b1 b2 : SStmt) : SStmt
  | prfref (p : String) (qs : List String) : SStmt
  | assert (hs : List HermRef) : SStmt

/-- Modelled from the spec: a surface proof term: the declared register
(the identifier list after `proof`), the precondition, the body and the
postcondition. -/
structure SProofTerm where
  reg : List String
  pre : List HermRef
  body : SStmt
  post : List HermRef

/-- An identifier list is acceptable as a placement: duplicate-free.  The
repository's accepted examples (the README error-correction proof, declared
`proof[q]` but placing operators on `q1`, `q2`, and `examples/BB84`,
declared `proof[key2 q2]` but placing operators on `key1`, `f`, `a1`, `a2`,
`b1`, `b2`, `q1`) show that the semantic analysis does not require placed
qubits to belong to the identifier list after `proof`, so no such check is
modelled. -/
def idsOK (qs : List String) : Bool :=
  decide qs.Nodup

/-- A placed operator reference is acceptable: placement acceptable and the
named operator exists with matching qubit count (`env` maps an operator or
proof name to its arity). -/
def hermOK (env : String → Option ℕ) (h : HermRef) : Bool :=
  idsOK h.2 && decide (env h.1 = some h.2.length)

/-- Modelled from the spec: the semantic analysis over a sentence (README
§Program Verification Procedure): all mentioned operators can be found, no
identifier list has repeated identifiers, and operator qubit counts match
identifier lists.  (Membership of placed qubits in the declared register is
not checked; see `idsOK`.) -/
def checkS (env : String → Option ℕ) : SStmt → Bool
  | .skip => true
  | .abort => true
  | .init qs => idsOK qs
  | .unitary qs g => idsOK qs && decide (env g = some qs.length)
  | .ifstmt g qs b1 b2 =>
      idsOK qs && decide (env g = some qs.length) &&
      checkS env b1 && checkS env b2
  | .whilestmt inv g qs b =>
      inv.all (hermOK env) && idsOK qs &&
      decide (env g = some qs.length) && checkS env b
  | .choice b1 b2 => checkS env b1 && checkS env b2
  | .seq b1 b2 => checkS env b1 && checkS env b2
  | .prfref p qs => idsOK qs && decide (env p = some qs.length)
  | .assert hs => hs.all (hermOK env)

/-- Modelled from the spec: the semantic analysis over a whole proof term:
the declared identifier list is duplicate-free and the precondition,
postcondition and body all pass. -/
def checkPT (env : String → Option ℕ) (pt : SProofTerm) : Bool :=
  decide pt.reg.Nodup && pt.pre.all (hermOK env) &&
  pt.post.all (hermOK env) && checkS env pt.body

/-- All operator placements occurring in a sentence (including measurement
placements and the placements of invariant and intermediate predicates). -/
def placementsS : SStmt → List (List String)
  | .skip => []
  | .abort => []
  | .init qs => [qs]
  | .unitary qs _ => [qs]
  | .ifstmt _ qs b1 b2 => qs :: (placementsS b1 ++ placementsS b2)
  | .whilestmt inv _ qs b => inv.map Prod.snd ++ qs :: placementsS b
  | .choice b1 b2 => placementsS b1 ++ placementsS b2
  | .seq b1 b2 => placementsS b1 ++ placementsS b2
  | .prfref _ qs => [qs]
  | .assert hs => hs.map Prod.snd

/-- A small operator-arity environment matching the preloaded library. -/
def sampleEnv : String → Option ℕ := fun nm =>
  (([("I", 1), ("X", 1), ("H", 1), ("P0", 1), ("P1", 1), ("Zero", 1),
     ("M10", 1), ("M01", 1), ("CX", 2)] : List (String × ℕ)).find? fun p =>
      p.1 = nm).map Prod.snd

/-- The hello-world surface proof term
`proof [q] : { P0[q] }; q *= X; { P1[q] }`. -/
def samplePT : SProofTerm :=
  ⟨["q"], [("P0", ["q"])], .unitary ["q"] "X", [("P1", ["q"])]⟩

/-- The opening fragment of the README error-correction example: declared
`proof[q]`, yet the body initialises `[q1 q2]` and applies `CX` on
`[q q1]` — placements on qubits outside the identifier list after
`proof`. -/
def ecPT : SProofTerm :=
  ⟨["q"], [("P0", ["q"])],
   .seq (.init ["q1", "q2"]) (.unitary ["q", "q1"] "CX"),
   [("P0", ["q"])]⟩

/-! ## Theorems: the order test and predicate-set algebra -/

namespace Q2

/-- The decidable predicate `nonneg` agrees with nonnegativity of the real
number `a + b·√2` that the pair represents. -/
theorem nonneg_iff (x : Q2) :
    nonneg x ↔ 0 ≤ (x.a : ℝ) + (x.b : ℝ) * Real.sqrt 2 := by
  obtain ⟨xa, xb⟩ := x
  have hs0 : (0 : ℝ) ≤ Real.sqrt 2 := Real.sqrt_nonneg 2
  have hs2 : Real.sqrt 2 * Real.sqrt 2 = 2 := Real.mul_self_sqrt (by norm_num)
  simp only [nonneg]
  constructor
  · rintro (⟨h1, h2⟩ | ⟨h1, h2, h3⟩ | ⟨h1, h2, h3⟩)
    · have h1' : (0 : ℝ) ≤ (xa : ℝ) := by exact_mod_cast h1
      have h2' : (0 : ℝ) ≤ (xb : ℝ) := by exact_mod_cast h2
      nlinarith
    · have h1' : (xa : ℝ) < 0 := by exact_mod_cast h1
      have h2' : (0 : ℝ) ≤ (xb : ℝ) := by exact_mod_cast h2
      have h3' : (xa : ℝ) ^ 2 ≤ 2 * (xb : ℝ) ^ 2 := by exact_mod_cast h3
      by_contra hc
      push_neg at hc
      have hd : (xa : ℝ) - (xb : ℝ) * Real.sqrt 2 < 0 := by
        nlinarith [mul_nonneg h2' hs0]
      have hp : 0 < ((xa : ℝ) + (xb : ℝ) * Real.sqrt 2) * ((xa : ℝ) - (xb : ℝ) * Real.sqrt 2) :=
        mul_pos_of_neg_of_neg hc hd
      nlinarith [hp, hs2, sq_nonneg (xb : ℝ)]
    · have h1' : (0 : ℝ) ≤ (xa : ℝ) := by exact_mod_cast h1
      have h2' : (xb : ℝ) < 0 := by exact_mod_cast h2
      have h3' : 2 * (xb : ℝ) ^ 2 ≤ (xa : ℝ) ^ 2 := by exact_mod_cast h3
      by_contra hc
      push_neg at hc
      have hd : 0 < (xa : ℝ) - (xb : ℝ) * Real.sqrt 2 := by
        nlinarith [mul_nonneg (neg_nonneg.2 h2'.le) hs0]
      have hp : ((xa : ℝ) + (xb : ℝ) * Real.sqrt 2) * ((xa : ℝ) - (xb : ℝ) * Real.sqrt 2) < 0 :=
        mul_neg_of_neg_of_pos hc hd
      nlinarith [hp, hs2, sq_nonneg (xb : ℝ)]
  · intro h
    rcases le_or_lt 0 xa with h1 | h1 <;> rcases le_or_lt 0 xb with h2 | h2
    · exact Or.inl ⟨h1, h2⟩
    · refine Or.inr (Or.inr ⟨h1, h2, ?_⟩)
      have h2' : (xb : ℝ) < 0 := by exact_mod_cast h2
      have hb : 0 ≤ (-(xb : ℝ)) * Real.sqrt 2 := mul_nonneg (by linarith) hs0
      have hle : (-(xb : ℝ)) * Real.sqrt 2 ≤ (xa : ℝ) := by nlinarith
      have hsq := mul_self_le_mul_self hb hle
      have key : 2 * (xb : ℝ) ^ 2 ≤ (xa : ℝ) ^ 2 := by
        nlinarith [hsq, hs2, sq_nonneg (xb : ℝ)]
      exact_mod_cast key
    · refine Or.inr (Or.inl ⟨h1, h2, ?_⟩)
      have h1' : (xa : ℝ) < 0 := by exact_mod_cast h1
      have h2' : (0 : ℝ) ≤ (xb : ℝ) := by exact_mod_cast h2
      have hb : 0 ≤ (xb : ℝ) * Real.sqrt 2 := mul_nonneg h2' hs0
      have hle : -(xa : ℝ) ≤ (xb : ℝ) * Real.sqrt 2 := by nlinarith
      have hsq := mul_self_le_mul_self (by linarith : (0 : ℝ) ≤ -(xa : ℝ)) hle
      have key : (xa : ℝ) ^ 2 ≤ 2 * (xb : ℝ) ^ 2 := by
        nlinarith [hsq, hs2, sq_nonneg (xb : ℝ)]
      exact_mod_cast key
    · exfalso
      have h1' : (xa : ℝ) < 0 := by exact_mod_cast h1
      have h2' : (xb : ℝ) < 0 := by exact_mod_cast h2
      nlinarith [mul_nonneg (neg_nonneg.2 (le_of_lt h2')) hs0]

theorem real_repr_mul (x y : Q2) :
    ((x * y).a : ℝ) + ((x * y).b : ℝ) * Real.sqrt 2 =
      ((x.a : ℝ) + (x.b : ℝ) * Real.sqrt 2) * ((y.a : ℝ) + (y.b : ℝ) * Real.sqrt 2) := by
  have hs2 : Real.sqrt 2 * Real.sqrt 2 = 2 := Real.mul_self_sqrt (by norm_num)
  simp only [mul_a, mul_b]
  push_cast
  linear_combination (-(x.b : ℝ)) * (y.b : ℝ) * hs2

theorem nonneg_zero : nonneg 0 := by
  rw [nonneg_iff]
  simp

theorem nonneg_add {x y : Q2} (hx : nonneg x) (hy : nonneg y) : nonneg (x + y) := by
  rw [nonneg_iff] at hx hy ⊢
  simp only [add_a, add_b] at *
  push_cast
  linarith

theorem nonneg_sq (x : Q2) : nonneg (x * x) := by
  rw [nonneg_iff, real_repr_mul]
  exact mul_self_nonneg _

theorem nonneg_sum {ι : Type _} (s : Finset ι) (f : ι → Q2)
    (h : ∀ i ∈ s, nonneg (f i)) : nonneg (∑ i ∈ s, f i) := by
  classical
  induction s using Finset.induction_on with
  | empty => simpa using nonneg_zero
  | insert ha ih =>
    rw [Finset.sum_insert ha]
    exact nonneg_add (h _ (Finset.mem_insert_self _ _))
      (ih fun i hi => h i (Finset.mem_insert_of_mem hi))

end Q2

/-- The zero matrix is accepted by the feasibility decision, whatever the
index list. -/
theorem psdList_zero {ι : Type} [DecidableEq ι] (l : List ι) :
    psdList l (0 : Matrix ι ι Q2) = true := by
  induction l with
  | nil => rfl
  | cons t rest ih =>
    simp [psdList, Matrix.zero_apply, ih, List.all_eq_true]


/-- The order test accepts `H ⊑ H`: the posed matrix plus the solver
tolerance is the zero matrix, which the feasibility decision accepts. -/
theorem leTest_refl {n : ℕ} (st : Settings) (H : Mat n) : leTest st H H = true := by
  unfold leTest sdpProblem psdB
  have h : H - H - scalMat st.sdpPrecision + scalMat st.sdpPrecision = 0 := by
    abel
  rw [h]
  exact psdList_zero _

/-- The implemented entailment is exactly the pointwise test. -/
theorem entails_iff {n : ℕ} (st : Settings) (S T : PredSet n) :
    entails st S T = true ↔ ∀ H ∈ T, ∃ Hp ∈ S, leTest st Hp H = true := by
  simp [entails, List.all_eq_true, List.any_eq_true]

/-- Entailment is reflexive (each element witnesses itself). -/
theorem entails_self {n : ℕ} (st : Settings) (W : PredSet n) :
    entails st W W = true :=
  (entails_iff st W W).mpr fun H hH => ⟨H, hH, leTest_refl st H⟩

/-- Claim C4. For every pair of predicate sets `S` and `T` over the same
register, the entailment `S ⊑ T` that the system decides holds exactly when
for every element `H` of `T` there exists a single element `H'` of `S` with
`H' ⊑ H` in the Löwner order test (pointwise, no combinations of several
elements of `S` are formed), and set equality is decided as entailment in
both directions. -/
theorem claim_C4 : ∀ (n : ℕ) (st : Settings) (S T : PredSet n),
    (entails st S T = true ↔ ∀ H ∈ T, ∃ Hp ∈ S, leTest st Hp H = true) ∧
    eqSet st S T = (entails st S T && entails st T S) :=
  fun n st S T => ⟨entails_iff st S T, rfl⟩

/-! ## Theorems: settings and scopes -/

/-- Claim C10. The global scope created when processing a `.nqpv` file starts
with the default settings `EPS = 1e-07`, `SDP_PRECISION = 1e-09` and
`SILENT = true`, and these settings are what every sub-scope inherits at
creation (a `setting` command is the only way to change them). -/
theorem claim_C10 :
    globalScope.settings.eps = 1 / 10000000 ∧
    globalScope.settings.sdpPrecision = 1 / 1000000000 ∧
    globalScope.settings.silent = true ∧
    (∀ sc : Scope, (mkSubScope sc).settings = sc.settings) :=
  ⟨rfl, rfl, rfl, fun _ => rfl⟩

/-! ## Theorems: the end-to-end loop scenarios -/

/-- Claim C2. For the loop program `{inv: Zero[q]}; while M10[q] do q *= H
end` with precondition `{I[q]}` and postcondition `{P0[q]}`, where the
supplied invariant `Zero[q]` is not a sufficient invariant, the transformer
rejects the invariant (the while rule's checks fail) and the verifier
returns the verdict `undetermined`. -/
theorem claim_C2 :
    wpBody defaultSettings ptLoopZero.body ptLoopZero.post = .error .invariantFailed ∧
    verify defaultSettings ptLoopZero = .undetermined := by
  constructor
  · decide
  · decide

/-- Claim C3. For the loop program `{inv: I[q]}; while M10[q] do q *= H end`
with precondition `{I[q]}` and postcondition `{P0[q]}`, the invariant
`I[q]` passes both the preservation check and the exit check of the while
rule, and the verifier returns the verdict `holds`. -/
theorem claim_C3 :
    wp defaultSettings (.unitary 1 posId1 matH) [(1 : Mat 1)] =
      .ok [(extend posId1 matH)ᵀ * 1 * extend posId1 matH] ∧
    entails defaultSettings [(1 : Mat 1)]
      (sandwichPairs (extend posId1 m10fst) (extend posId1 m10snd)
        [matP0] [(extend posId1 matH)ᵀ * 1 * extend posId1 matH]) = true ∧
    entails defaultSettings (exitSet (extend posId1 m10fst) [matP0])
      [(1 : Mat 1)] = true ∧
    verify defaultSettings ptLoopI = .holds := by
  refine ⟨rfl, ?_, ?_, ?_⟩
  · decide
  · decide
  · decide

/-! ## Theorems: proof-term references -/

/-- Claim C9. A sentence inside a proof body may be a reference to a
previously proven proof term applied to a qubit list; once resolved to the
established precondition `P` and postcondition `Qpost` at the instantiated
qubits, the transformer accepts it as a statement whenever `Qpost` entails
the current goal, yields the established precondition `P` as its weakest
precondition, and the driver's proof outline shows that precondition for
the citing sentence. -/
theorem claim_C9 : ∀ (n : ℕ) (st : Settings) (P Qpost Qgoal : PredSet n),
    entails st Qpost Qgoal = true →
    wp st (.prfref P Qpost) Qgoal = .ok P ∧
    wpSeqO st [.prfref P Qpost] Qgoal =
      .ok (P, [(.prfref P Qpost, P, Qgoal)]) := by
  intro n st P Qpost Qgoal h
  have h1 : wp st (.prfref P Qpost) Qgoal = .ok P := by simp [wp, h]
  have h2 : wpSeqO st [Stmt.prfref P Qpost] Qgoal =
      (wp st (.prfref P Qpost) Qgoal).bind
        fun W => .ok (W, [(.prfref P Qpost, W, Qgoal)]) := rfl
  refine ⟨h1, ?_⟩
  rw [h2, h1]
  rfl

/-- Witness for C9 at a concrete instance: the hello-world citation
`cnot_pf [q0]` shape with `P = {P0}`, `Qpost = Qgoal = {P1}`. -/
theorem claim_C9_witness :
    entails defaultSettings [matP1] [matP1] = true ∧
    wp defaultSettings (.prfref [matP0] [matP1]) [matP1] = .ok [matP0] ∧
    wpSeqO defaultSettings [.prfref [matP0] [matP1]] [matP1] =
      .ok ([matP0], [(.prfref [matP0] [matP1], [matP0], [matP1])]) := by
  refine ⟨by decide, ?_⟩
  exact claim_C9 1 defaultSettings [matP0] [matP1] [matP1] (by decide)

/-! ## Theorems: the loop-free fragment is decided definitely -/

@[simp] theorem ebind_ok {ε α β : Type} (a : α) (f : α → Except ε β) :
    (Except.ok a : Except ε α) >>= f = f a := rfl

@[simp] theorem ebind_error {ε α β : Type} (e : ε) (f : α → Except ε β) :
    (Except.error e : Except ε α) >>= f = .error e := rfl

/-- A while-free statement never produces an invariant failure. -/
theorem wp_ne_invFail {n : ℕ} (st : Settings) :
    ∀ S : Stmt n, hasWhile S = false → ∀ Q, wp st S Q ≠ .error .invariantFailed := by
  intro S
  induction S with
  | skip => intro _ Q; simp [wp]
  | abort => intro _ Q; simp [wp]
  | init m pos => intro _ Q; simp [wp]
  | unitary m pos U => intro _ Q; simp [wp]
  | ifstmt m pos M0 M1 s1 s2 ih1 ih2 =>
      intro hW Q
      simp only [hasWhile, Bool.or_eq_false_iff] at hW
      simp only [wp]
      cases h1 : wp st s1 Q with
      | error e =>
          cases e with
          | invariantFailed => exact absurd h1 (ih1 hW.1 Q)
          | proofRefMismatch => simp
      | ok W1 =>
          simp only [ebind_ok]
          cases h2 : wp st s2 Q with
          | error e =>
              cases e with
              | invariantFailed => exact absurd h2 (ih2 hW.2 Q)
              | proofRefMismatch => simp
          | ok W2 => simp
  | whilestmt m pos M0 M1 J body ih =>
      intro hW
      simp [hasWhile] at hW
  | choice s1 s2 ih1 ih2 =>
      intro hW Q
      simp only [hasWhile, Bool.or_eq_false_iff] at hW
      simp only [wp]
      cases h1 : wp st s1 Q with
      | error e =>
          cases e with
          | invariantFailed => exact absurd h1 (ih1 hW.1 Q)
          | proofRefMismatch => simp
      | ok W1 =>
          simp only [ebind_ok]
          cases h2 : wp st s2 Q with
          | error e =>
              cases e with
              | invariantFailed => exact absurd h2 (ih2 hW.2 Q)
              | proofRefMismatch => simp
          | ok W2 => simp
  | seq s1 s2 ih1 ih2 =>
      intro hW Q
      simp only [hasWhile, Bool.or_eq_false_iff] at hW
      simp only [wp]
      cases h2 : wp st s2 Q with
      | error e =>
          cases e with
          | invariantFailed => exact absurd h2 (ih2 hW.2 Q)
          | proofRefMismatch => simp
      | ok Qmid =>
          simp only [ebind_ok]
          exact ih1 hW.1 Qmid
  | prfref P Qp =>
      intro _ Q
      simp only [wp]
      split <;> simp

/-- On the fully automatic fragment (no while, no proof citation) the
transformer is total. -/
theorem wp_total {n : ℕ} (st : Settings) :
    ∀ S : Stmt n, hasWhile S = false → hasPrfref S = false →
      ∀ Q, ∃ W, wp st S Q = .ok W := by
  intro S
  induction S with
  | skip => intro _ _ Q; exact ⟨Q, rfl⟩
  | abort => intro _ _ Q; exact ⟨[1], rfl⟩
  | init m pos => intro _ _ Q; exact ⟨_, rfl⟩
  | unitary m pos U => intro _ _ Q; exact ⟨_, rfl⟩
  | ifstmt m pos M0 M1 s1 s2 ih1 ih2 =>
      intro hW hR Q
      simp only [hasWhile, hasPrfref, Bool.or_eq_false_iff] at hW hR
      obtain ⟨W1, h1⟩ := ih1 hW.1 hR.1 Q
      obtain ⟨W2, h2⟩ := ih2 hW.2 hR.2 Q
      refine ⟨sandwichPairs (extend pos M0) (extend pos M1) W1 W2, ?_⟩
      simp only [wp]
      rw [h1]
      simp only [ebind_ok]
      rw [h2]
      rfl
  | whilestmt m pos M0 M1 J body ih =>
      intro hW
      simp [hasWhile] at hW
  | choice s1 s2 ih1 ih2 =>
      intro hW hR Q
      simp only [hasWhile, hasPrfref, Bool.or_eq_false_iff] at hW hR
      obtain ⟨W1, h1⟩ := ih1 hW.1 hR.1 Q
      obtain ⟨W2, h2⟩ := ih2 hW.2 hR.2 Q
      refine ⟨W1 ++ W2, ?_⟩
      simp only [wp]
      rw [h1]
      simp only [ebind_ok]
      rw [h2]
      rfl
  | seq s1 s2 ih1 ih2 =>
      intro hW hR Q
      simp only [hasWhile, hasPrfref, Bool.or_eq_false_iff] at hW hR
      obtain ⟨Qmid, h2⟩ := ih2 hW.2 hR.2 Q
      obtain ⟨W1, h1⟩ := ih1 hW.1 hR.1 Qmid
      exact ⟨W1, by simp only [wp]; rw [h2]; simp only [ebind_ok]; exact h1⟩
  | prfref P Qp =>
      intro _ hR
      simp [hasPrfref] at hR

/-- A while-free body never produces an invariant failure. -/
theorem wpSeqO_ne_invFail {n : ℕ} (st : Settings) :
    ∀ l : List (Stmt n), hasWhileBody l = false →
      ∀ Q, wpSeqO st l Q ≠ .error .invariantFailed := by
  intro l
  induction l with
  | nil => intro _ Q; simp [wpSeqO]
  | cons s rest ih =>
      intro hW Q
      simp only [hasWhileBody, List.any_cons, Bool.or_eq_false_iff] at hW
      simp only [wpSeqO]
      cases hr : wpSeqO st rest Q with
      | error e =>
          cases e with
          | invariantFailed => exact absurd hr (ih hW.2 Q)
          | proofRefMismatch => simp
      | ok pr =>
          simp only [ebind_ok]
          cases hs : wp st s pr.1 with
          | error e =>
              cases e with
              | invariantFailed => exact absurd hs (wp_ne_invFail st s hW.1 pr.1)
              | proofRefMismatch => simp
          | ok W => simp
  
/-- On the fully automatic fragment the driver's walk is total. -/
theorem wpSeqO_total {n : ℕ} (st : Settings) :
    ∀ l : List (Stmt n), hasWhileBody l = false → hasPrfrefBody l = false →
      ∀ Q, ∃ pr, wpSeqO st l Q = .ok pr := by
  intro l
  induction l with
  | nil => intro _ _ Q; exact ⟨(Q, []), rfl⟩
  | cons s rest ih =>
      intro hW hR Q
      simp only [hasWhileBody, hasPrfrefBody, List.any_cons, Bool.or_eq_false_iff] at hW hR
      obtain ⟨pr, hr⟩ := ih hW.2 hR.2 Q
      obtain ⟨W, hs⟩ := wp_total st s hW.1 hR.1 pr.1
      refine ⟨(W, (s, W, pr.1) :: pr.2), ?_⟩
      simp only [wpSeqO]
      rw [hr]
      simp only [ebind_ok]
      rw [hs]
      rfl

/-- The driver verdict once the transformer has produced a precondition. -/
theorem verify_of_ok {n : ℕ} (st : Settings) (pt : ProofTerm n) (W : PredSet n)
    (hwp : wpBody st pt.body pt.post = .ok W) :
    verify st pt =
      if entails st pt.pre W then .holds
      else if hasWhileBody pt.body then .undetermined
      else .doesNotHold := by
  unfold verify
  rw [hwp]

/-- Claim C1. For every proof term whose program contains no while statement,
the driver returns a definite verdict: never `undetermined`; on the fully
automatic fragment the verdict is `holds` or `does-not-hold`; whenever the
transformer computes `wp(body, post)`, the verdict is `holds` exactly when
the stated precondition entails it and `does-not-hold` exactly when that
entailment fails.  In particular, for the program `q *= X` with
precondition `{P0[q]}` and postcondition `{P0[q]}`, the verdict is
`does-not-hold`. -/
theorem claim_C1 :
    (∀ (n : ℕ) (st : Settings) (pt : ProofTerm n),
        hasWhileBody pt.body = false →
        verify st pt ≠ .undetermined ∧
        (hasPrfrefBody pt.body = false →
            verify st pt = .holds ∨ verify st pt = .doesNotHold) ∧
        (∀ W, wpBody st pt.body pt.post = .ok W →
            (entails st pt.pre W = true → verify st pt = .holds) ∧
            (entails st pt.pre W = false → verify st pt = .doesNotHold))) ∧
    verify defaultSettings ptX = .doesNotHold := by
  constructor
  · intro n st pt hW
    refine ⟨?_, ?_, ?_⟩
    · unfold verify
      cases hwp : wpBody st pt.body pt.post with
      | error e =>
          cases e with
          | invariantFailed =>
              exfalso
              unfold wpBody at hwp
              cases hseq : wpSeqO st pt.body pt.post with
              | error e' =>
                  rw [hseq] at hwp
                  cases e' with
                  | invariantFailed => exact wpSeqO_ne_invFail st pt.body hW pt.post hseq
                  | proofRefMismatch => simp [Except.map] at hwp
              | ok pr => rw [hseq] at hwp; simp [Except.map] at hwp
          | proofRefMismatch => simp
      | ok W =>
          by_cases he : entails st pt.pre W = true
          · simp [he]
          · simp only [Bool.not_eq_true] at he
            simp [he, hW]
    · intro hR
      obtain ⟨pr, hseq⟩ := wpSeqO_total st pt.body hW hR pt.post
      have hwp : wpBody st pt.body pt.post = .ok pr.1 := by
        unfold wpBody
        rw [hseq]
        rfl
      rw [verify_of_ok st pt pr.1 hwp, hW]
      by_cases he : entails st pt.pre pr.1 = true
      · simp [he]
      · simp only [Bool.not_eq_true] at he
        simp [he]
    · intro W hwp
      rw [verify_of_ok st pt W hwp, hW]
      constructor
      · intro he
        simp [he]
      · intro he
        simp [he]
  · decide

/-- Witness for C1: the scenario program `q *= X` with `{P0}` before and
after is while-free, not undetermined, and judged `does-not-hold`. -/
theorem claim_C1_witness :
    hasWhileBody ptX.body = false ∧
    verify defaultSettings ptX ≠ .undetermined ∧
    verify defaultSettings ptX = .doesNotHold :=
  ⟨by decide, (claim_C1.1 1 defaultSettings ptX (by decide)).1, claim_C1.2⟩

/-! ## Theorems: nondeterministic choice is the meet (union) -/

/-- The transformer on a k-ary choice yields the concatenation of the
branch preconditions. -/
theorem wp_choiceN {n : ℕ} (st : Settings) (Q : PredSet n) :
    ∀ (l : List (Stmt n)) (S0 : Stmt n) (W0 : PredSet n) (Ws : List (PredSet n)),
      wp st S0 Q = .ok W0 → (l.mapM fun S => wp st S Q) = .ok Ws →
      wp st (choiceN S0 l) Q = .ok (W0 ++ Ws.flatten) := by
  intro l
  induction l with
  | nil =>
      intro S0 W0 Ws h0 hl
      simp only [List.mapM_nil] at hl
      have hWs : Ws = [] := by
        have := hl
        simp only [pure, Except.pure] at this
        exact (Except.ok.injEq _ _).mp this.symm ▸ rfl
      subst hWs
      simpa [choiceN] using h0
  | cons T rest ih =>
      intro S0 W0 Ws h0 hl
      rw [List.mapM_cons] at hl
      cases hT : wp st T Q with
      | error e => rw [hT] at hl; simp at hl
      | ok WT =>
          rw [hT] at hl
          simp only [ebind_ok] at hl
          cases hR : (rest.mapM fun S => wp st S Q) with
          | error e => rw [hR] at hl; simp at hl
          | ok Wrest =>
              rw [hR] at hl
              simp only [ebind_ok, pure, Except.pure, Except.ok.injEq] at hl
              subst hl
              have hrec : wp st (choiceN T rest) Q = .ok (WT ++ Wrest.flatten) :=
                ih T WT Wrest hT hR
              simp only [choiceN, wp]
              rw [h0]
              simp only [ebind_ok]
              rw [hrec]
              simp only [ebind_ok, List.flatten_cons, List.append_assoc]

/-- The doubled set `W ++ W` entails `W` (each element witnesses itself on the left). -/
theorem entails_append_self_left {n : ℕ} (st : Settings) (W : PredSet n) :
    entails st (W ++ W) W = true :=
  (entails_iff st _ _).mpr fun H hH =>
    ⟨H, List.mem_append_left _ hH, leTest_refl st H⟩

/-- The set `W` entails `W ++ W`. -/
theorem entails_self_append {n : ℕ} (st : Settings) (W : PredSet n) :
    entails st W (W ++ W) = true :=
  (entails_iff st _ _).mpr fun H hH =>
    ⟨H, by rcases List.mem_append.mp hH with h | h <;> exact h, leTest_refl st H⟩

/-- Claim C8. For every `k ≥ 2`, statements `S₁, …, Sₖ` and postcondition set
`Q`, `wp(choice(S₁,…,Sₖ), Q)` equals the meet (set union, here list
concatenation) of `wp(S₁,Q), …, wp(Sₖ,Q)`; consequently, for every
statement `S`, `wp(choice(S,S), Q)` is equivalent, up to predicate-set
equality, to `wp(S, Q)`. -/
theorem claim_C8 :
    (∀ (n : ℕ) (st : Settings) (Q : PredSet n) (S1 S2 : Stmt n)
        (rest : List (Stmt n)) (Ws : List (PredSet n)),
        ((S1 :: S2 :: rest).mapM fun S => wp st S Q) = .ok Ws →
        wp st (choiceN S1 (S2 :: rest)) Q = .ok Ws.flatten) ∧
    (∀ (n : ℕ) (st : Settings) (Q : PredSet n) (S : Stmt n) (W : PredSet n),
        wp st S Q = .ok W →
        wp st (choiceN S [S]) Q = .ok (W ++ W) ∧
        eqSet st (W ++ W) W = true) := by
  constructor
  · intro n st Q S1 S2 rest Ws hl
    rw [List.mapM_cons] at hl
    cases h1 : wp st S1 Q with
    | error e => rw [h1] at hl; simp at hl
    | ok W1 =>
        rw [h1] at hl
        simp only [ebind_ok] at hl
        cases hR : ((S2 :: rest).mapM fun S => wp st S Q) with
        | error e => rw [hR] at hl; simp at hl
        | ok Wrest =>
            rw [hR] at hl
            simp only [ebind_ok, pure, Except.pure, Except.ok.injEq] at hl
            subst hl
            rw [List.flatten_cons]
            exact wp_choiceN st Q (S2 :: rest) S1 W1 Wrest h1 hR
  · intro n st Q S W h
    constructor
    · simp only [choiceN, wp]
      rw [h]
      simp only [ebind_ok]
    · unfold eqSet
      rw [entails_append_self_left, entails_self_append]
      rfl

/-- Witness for C8 at a concrete instance: `choice(skip, skip)` against
`{P0}` yields `{P0} ∪ {P0}`, which is equivalent to `{P0}`. -/
theorem claim_C8_witness :
    ((([.skip, .skip] : List (Stmt 1)).mapM fun S => wp defaultSettings S [matP0]) =
        .ok [[matP0], [matP0]]) ∧
    wp defaultSettings (choiceN (.skip : Stmt 1) [.skip]) [matP0] =
      .ok [matP0, matP0] ∧
    wp defaultSettings (.skip : Stmt 1) [matP0] = .ok [matP0] ∧
    eqSet defaultSettings [matP0, matP0] [matP0] = true := by
  refine ⟨rfl, ?_, rfl, ?_⟩
  · exact claim_C8.1 1 defaultSettings [matP0] .skip .skip [] [[matP0], [matP0]] rfl
  · exact (claim_C8.2 1 defaultSettings [matP0] .skip [matP0] rfl).2

/-! ## Theorems: the SDP shift and the tolerance boundary -/

/-- The zero matrix is (semantically) positive semidefinite. -/
theorem PSDsem_zero {n : ℕ} : PSDsem (0 : Mat n) := by
  intro v
  unfold quadF
  rw [Matrix.zero_mulVec, Matrix.dotProduct_zero]
  exact Q2.nonneg_zero

/-- The posed feasibility problem's shift is `SDP_PRECISION`, and neither
the posed problem nor the order test's outcome depends on `EPS`.  (The
spec's further boundary remark — that a floating-point solver may report a
mathematically true entailment false when `EPS > SDP_PRECISION` — concerns
the solver's numerics: in this exact model the shift and the solver's
feasibility tolerance, both `SDP_PRECISION`, cancel, so the test accepts
every entailment whose difference the feasibility decision certifies.) -/
theorem sdpProblem_shift_eps_independent :
    ∀ (n : ℕ) (A B : Mat n) (st : Settings),
      sdpProblem A B st = B - A - scalMat st.sdpPrecision ∧
      ∀ e : ℚ, sdpProblem A B (setEps st e) = sdpProblem A B st ∧
        leTest (setEps st e) A B = leTest st A B :=
  fun n A B st => ⟨rfl, fun e => ⟨rfl, rfl⟩⟩

/-! ## Theorems: quadratic forms and the sandwich rules -/

/-- The quadratic form of a sandwich `Kᵀ·H·K` is the form of `H` at the
transformed vector. -/
theorem quadF_sandwich {n : ℕ} (K H : Mat n) (v : Idx n → Q2) :
    quadF (Kᵀ * H * K) v = quadF H (K.mulVec v) := by
  unfold quadF
  rw [← Matrix.mulVec_mulVec, ← Matrix.mulVec_mulVec, Matrix.dotProduct_mulVec,
    Matrix.vecMul_transpose]

theorem quadF_add {n : ℕ} (A B : Mat n) (v : Idx n → Q2) :
    quadF (A + B) v = quadF A v + quadF B v := by
  unfold quadF
  rw [Matrix.add_mulVec, Matrix.dotProduct_add]

theorem quadF_sum {n : ℕ} {ι : Type} (s : Finset ι) (f : ι → Mat n) (v : Idx n → Q2) :
    quadF (∑ k ∈ s, f k) v = ∑ k ∈ s, quadF (f k) v := by
  classical
  induction s using Finset.induction_on with
  | empty =>
      simp only [Finset.sum_empty]
      unfold quadF
      rw [Matrix.zero_mulVec, Matrix.dotProduct_zero]
  | insert ha ih =>
      rw [Finset.sum_insert ha, Finset.sum_insert ha, quadF_add, ih]

theorem quadF_one {n : ℕ} (v : Idx n → Q2) : quadF (1 : Mat n) v = v ⬝ᵥ v := by
  unfold quadF
  rw [Matrix.one_mulVec]

/-- A vector's dot product with itself is nonnegative (sum of squares). -/
theorem nonneg_dotSelf {n : ℕ} (v : Idx n → Q2) : Q2.nonneg (v ⬝ᵥ v) :=
  Q2.nonneg_sum _ _ fun i _ => Q2.nonneg_sq (v i)

theorem PSDsem_sandwich {n : ℕ} (K : Mat n) {H : Mat n} (h : PSDsem H) :
    PSDsem (Kᵀ * H * K) := fun v => by
  rw [quadF_sandwich]
  exact h _

theorem PSDsem_add {n : ℕ} {A B : Mat n} (hA : PSDsem A) (hB : PSDsem B) :
    PSDsem (A + B) := fun v => by
  rw [quadF_add]
  exact Q2.nonneg_add (hA v) (hB v)

theorem PSDsem_sum {n : ℕ} {ι : Type} (s : Finset ι) (f : ι → Mat n)
    (h : ∀ k ∈ s, PSDsem (f k)) : PSDsem (∑ k ∈ s, f k) := fun v => by
  rw [quadF_sum]
  exact Q2.nonneg_sum _ _ fun k hk => h k hk v

theorem PSDsem_one {n : ℕ} : PSDsem (1 : Mat n) := fun v => by
  rw [quadF_one]
  exact nonneg_dotSelf v

theorem hermM_sandwich {n : ℕ} (K : Mat n) {H : Mat n} (h : hermM H) :
    hermM (Kᵀ * H * K) := by
  unfold hermM at *
  rw [Matrix.transpose_mul, Matrix.transpose_mul, Matrix.transpose_transpose, h,
    Matrix.mul_assoc]

theorem hermM_add {n : ℕ} {A B : Mat n} (hA : hermM A) (hB : hermM B) :
    hermM (A + B) := by
  unfold hermM at *
  rw [Matrix.transpose_add, hA, hB]

theorem hermM_sum {n : ℕ} {ι : Type} (s : Finset ι) (f : ι → Mat n)
    (h : ∀ k ∈ s, hermM (f k)) : hermM (∑ k ∈ s, f k) := by
  classical
  induction s using Finset.induction_on with
  | empty =>
      unfold hermM
      simp
  | insert ha ih =>
      rw [Finset.sum_insert ha]
      exact hermM_add (h _ (Finset.mem_insert_self _ _))
        (ih fun k hk => h k (Finset.mem_insert_of_mem hk))

theorem hermM_one {n : ℕ} : hermM (1 : Mat n) := Matrix.transpose_one

/-- The identity is a valid Hermitian predicate. -/
theorem hermInUnit_one {n : ℕ} : hermInUnit (1 : Mat n) := by
  refine ⟨hermM_one, PSDsem_one, ?_⟩
  rw [sub_self]
  exact PSDsem_zero

/-- Single-sandwich preservation: if `KᵀK = I` then `Kᵀ·H·K` is a valid
Hermitian predicate whenever `H` is (the unitary rule). -/
theorem hermInUnit_sandwich_one {n : ℕ} (K : Mat n) {H : Mat n}
    (hK : Kᵀ * K = 1) (hH : hermInUnit H) : hermInUnit (Kᵀ * H * K) := by
  obtain ⟨h1, h2, h3⟩ := hH
  refine ⟨hermM_sandwich K h1, PSDsem_sandwich K h2, ?_⟩
  have key : (1 : Mat n) - Kᵀ * H * K = Kᵀ * (1 - H) * K := by
    rw [Matrix.mul_sub, Matrix.sub_mul, Matrix.mul_one, hK]
  rw [key]
  exact PSDsem_sandwich K h3

/-- Two-branch sandwich preservation: the measurement rule for `if` and
`while` produces valid Hermitian predicates (`M₀ᵀM₀ + M₁ᵀM₁ = I` applied to
two elements bounded by `I`). -/
theorem hermInUnit_sandwich_pair {n : ℕ} (E0 E1 : Mat n) {h1 h2 : Mat n}
    (hK : E0ᵀ * E0 + E1ᵀ * E1 = 1) (hh1 : hermInUnit h1) (hh2 : hermInUnit h2) :
    hermInUnit (E0ᵀ * h1 * E0 + E1ᵀ * h2 * E1) := by
  obtain ⟨a1, a2, a3⟩ := hh1
  obtain ⟨b1, b2, b3⟩ := hh2
  refine ⟨hermM_add (hermM_sandwich E0 a1) (hermM_sandwich E1 b1),
    PSDsem_add (PSDsem_sandwich E0 a2) (PSDsem_sandwich E1 b2), ?_⟩
  have key : (1 : Mat n) - (E0ᵀ * h1 * E0 + E1ᵀ * h2 * E1) =
      E0ᵀ * (1 - h1) * E0 + E1ᵀ * (1 - h2) * E1 := by
    rw [Matrix.mul_sub, Matrix.mul_sub, Matrix.sub_mul, Matrix.sub_mul,
      Matrix.mul_one, Matrix.mul_one, ← hK]
    abel
  rw [key]
  exact PSDsem_add (PSDsem_sandwich E0 a3) (PSDsem_sandwich E1 b3)

/-- Family sandwich preservation: the init rule's sum `Σₖ Kₖᵀ·H·Kₖ` with
`Σₖ KₖᵀKₖ = I` produces valid Hermitian predicates. -/
theorem hermInUnit_sandwich_family {n : ℕ} {ι : Type} [Fintype ι]
    (K : ι → Mat n) {H : Mat n}
    (hK : ∑ k : ι, (K k)ᵀ * K k = 1) (hH : hermInUnit H) :
    hermInUnit (∑ k : ι, (K k)ᵀ * H * K k) := by
  obtain ⟨h1, h2, h3⟩ := hH
  refine ⟨hermM_sum _ _ fun k _ => hermM_sandwich (K k) h1,
    PSDsem_sum _ _ fun k _ => PSDsem_sandwich (K k) h2, ?_⟩
  have key : (1 : Mat n) - ∑ k : ι, (K k)ᵀ * H * K k =
      ∑ k : ι, (K k)ᵀ * (1 - H) * K k := by
    have expand : ∀ k : ι, (K k)ᵀ * (1 - H) * K k =
        (K k)ᵀ * K k - (K k)ᵀ * H * K k := by
      intro k
      rw [Matrix.mul_sub, Matrix.sub_mul, Matrix.mul_one]
    calc (1 : Mat n) - ∑ k : ι, (K k)ᵀ * H * K k
        = (∑ k : ι, (K k)ᵀ * K k) - ∑ k : ι, (K k)ᵀ * H * K k := by rw [hK]
      _ = ∑ k : ι, ((K k)ᵀ * K k - (K k)ᵀ * H * K k) := by
            rw [Finset.sum_sub_distrib]
      _ = ∑ k : ι, (K k)ᵀ * (1 - H) * K k := by
            exact Finset.sum_congr rfl fun k _ => (expand k).symm
  rw [key]
  exact PSDsem_sum _ _ fun k _ => PSDsem_sandwich (K k) h3

/-! ## Theorems: cylindrical extension -/

theorem offAgree_refl {m n : ℕ} (pos : Fin m → Fin n) (i : Idx n) :
    offAgree pos i i := fun _ _ => rfl

theorem offAgree_symm {m n : ℕ} {pos : Fin m → Fin n} {i j : Idx n}
    (h : offAgree pos i j) : offAgree pos j i := fun t ht => (h t ht).symm

theorem offAgree_trans {m n : ℕ} {pos : Fin m → Fin n} {i j k : Idx n}
    (h1 : offAgree pos i j) (h2 : offAgree pos j k) : offAgree pos i k :=
  fun t ht => (h1 t ht).trans (h2 t ht)

/-- List search returns the element when it is the unique satisfier present. -/
theorem find?_eq_of_unique {α : Type} (p : α → Bool) :
    ∀ (l : List α) (x : α), x ∈ l → p x = true →
      (∀ y ∈ l, p y = true → y = x) → l.find? p = some x := by
  intro l
  induction l with
  | nil => intro x hx; simp at hx
  | cons hd tl ih =>
      intro x hx hpx huniq
      by_cases hhd : p hd = true
      · have heq : hd = x := huniq hd (List.mem_cons_self hd tl) hhd
        subst heq
        exact List.find?_cons_of_pos _ hhd
      · rw [List.find?_cons_of_neg _ (by simpa using hhd)]
        have hx' : x ∈ tl := by
          rcases List.mem_cons.mp hx with h | h
          · subst h; exact absurd hpx hhd
          · exact h
        exact ih x hx' hpx fun y hy hpy => huniq y (List.mem_cons_of_mem _ hy) hpy

theorem invIdx_pos_eq {m n : ℕ} {pos : Fin m → Fin n}
    (hinj : Function.Injective pos) (sl : Fin m) : invIdx pos (pos sl) = some sl := by
  unfold invIdx
  apply find?_eq_of_unique
  · exact List.mem_finRange sl
  · simp
  · intro y _ hpy
    simp only [decide_eq_true_eq] at hpy
    exact hinj hpy

theorem invIdx_some {m n : ℕ} {pos : Fin m → Fin n} {t : Fin n} {sl : Fin m}
    (h : invIdx pos t = some sl) : pos sl = t := by
  unfold invIdx at h
  have := List.find?_some h
  simpa using this

theorem subIdx_override {m n : ℕ} {pos : Fin m → Fin n}
    (hinj : Function.Injective pos) (i : Idx n) (k : Idx m) :
    subIdx pos (overrideIdx pos i k) = k := by
  funext sl
  unfold subIdx overrideIdx
  rw [invIdx_pos_eq hinj sl]

theorem offAgree_override {m n : ℕ} (pos : Fin m → Fin n) (i : Idx n) (k : Idx m) :
    offAgree pos i (overrideIdx pos i k) := by
  intro t ht
  unfold overrideIdx
  rw [ht]

theorem override_of_offAgree {m n : ℕ} {pos : Fin m → Fin n} {i l : Idx n}
    (h : offAgree pos i l) : overrideIdx pos i (subIdx pos l) = l := by
  funext t
  unfold overrideIdx
  cases hf : invIdx pos t with
  | none => exact h t hf
  | some sl =>
      show l (pos sl) = l t
      rw [invIdx_some hf]

/-- Summing a function supported on the `offAgree`-class of `i` amounts to
summing over placement indices via `overrideIdx`. -/
theorem sum_override {m n : ℕ} {pos : Fin m → Fin n}
    (hinj : Function.Injective pos) (i : Idx n) (G : Idx n → Q2) :
    (∑ l : Idx n, if offAgree pos i l then G l else 0) =
      ∑ k : Idx m, G (overrideIdx pos i k) := by
  classical
  rw [← Finset.sum_filter]
  have himg : (Finset.univ.filter fun l => offAgree pos i l) =
      Finset.univ.image fun k => overrideIdx pos i k := by
    ext l
    simp only [Finset.mem_filter, Finset.mem_univ, true_and, Finset.mem_image]
    constructor
    · intro h
      exact ⟨subIdx pos l, override_of_offAgree h⟩
    · rintro ⟨k, rfl⟩
      exact offAgree_override pos i k
  rw [himg, Finset.sum_image]
  intro x _ y _ hxy
  have hsub := congrArg (subIdx pos) hxy
  rwa [subIdx_override hinj, subIdx_override hinj] at hsub

theorem extend_transpose {m n : ℕ} (pos : Fin m → Fin n)
    (A : Matrix (Idx m) (Idx m) Q2) : (extend pos A)ᵀ = extend pos Aᵀ := by
  ext i j
  show extend pos A j i = extend pos Aᵀ i j
  simp only [extend, Matrix.of_apply, Matrix.transpose_apply]
  by_cases h : offAgree pos i j
  · rw [if_pos (offAgree_symm h), if_pos h]
  · rw [if_neg (fun hc => h (offAgree_symm hc)), if_neg h]

theorem extend_add {m n : ℕ} (pos : Fin m → Fin n)
    (A B : Matrix (Idx m) (Idx m) Q2) :
    extend pos (A + B) = extend pos A + extend pos B := by
  ext i j
  simp only [extend, Matrix.of_apply, Matrix.add_apply]
  by_cases h : offAgree pos i j
  · rw [if_pos h, if_pos h, if_pos h]
  · rw [if_neg h, if_neg h, if_neg h]
    simp

theorem extend_sum {m n : ℕ} {ι : Type} (pos : Fin m → Fin n) (s : Finset ι)
    (f : ι → Matrix (Idx m) (Idx m) Q2) :
    extend pos (∑ k ∈ s, f k) = ∑ k ∈ s, extend pos (f k) := by
  ext i j
  rw [Matrix.sum_apply]
  simp only [extend, Matrix.of_apply]
  by_cases h : offAgree pos i j
  · rw [if_pos h, Matrix.sum_apply]
    exact Finset.sum_congr rfl fun k _ => (if_pos h).symm
  · rw [if_neg h]
    symm
    exact Finset.sum_eq_zero fun k _ => if_neg h

theorem extend_one {m n : ℕ} (pos : Fin m → Fin n) :
    extend pos (1 : Matrix (Idx m) (Idx m) Q2) = 1 := by
  ext i j
  simp only [extend, Matrix.of_apply]
  by_cases hij : i = j
  · subst hij
    rw [if_pos (offAgree_refl pos i), Matrix.one_apply_eq, Matrix.one_apply_eq]
  · rw [Matrix.one_apply_ne hij]
    by_cases h : offAgree pos i j
    · rw [if_pos h, Matrix.one_apply]
      rw [if_neg]
      intro hsub
      apply hij
      funext t
      cases hf : invIdx pos t with
      | none => exact h t hf
      | some sl =>
          have hpos := invIdx_some hf
          rw [← hpos]
          exact congrFun hsub sl
    · rw [if_neg h]

theorem extend_mul {m n : ℕ} {pos : Fin m → Fin n}
    (hinj : Function.Injective pos) (A B : Matrix (Idx m) (Idx m) Q2) :
    extend pos A * extend pos B = extend pos (A * B) := by
  ext i j
  rw [Matrix.mul_apply]
  simp only [extend, Matrix.of_apply]
  by_cases hij : offAgree pos i j
  · rw [if_pos hij, Matrix.mul_apply]
    have hterm : ∀ l : Idx n,
        (if offAgree pos i l then A (subIdx pos i) (subIdx pos l) else 0) *
          (if offAgree pos l j then B (subIdx pos l) (subIdx pos j) else 0) =
        (if offAgree pos i l then
          A (subIdx pos i) (subIdx pos l) * B (subIdx pos l) (subIdx pos j) else 0) := by
      intro l
      by_cases hl : offAgree pos i l
      · rw [if_pos hl, if_pos hl, if_pos (offAgree_trans (offAgree_symm hl) hij)]
      · rw [if_neg hl, if_neg hl, zero_mul]
    rw [Finset.sum_congr rfl fun l _ => hterm l]
    rw [sum_override hinj i]
    exact Finset.sum_congr rfl fun k _ => by rw [subIdx_override hinj]
  · rw [if_neg hij]
    apply Finset.sum_eq_zero
    intro l _
    by_cases hl : offAgree pos i l
    · rw [if_pos hl, if_neg (fun hc => hij (offAgree_trans hl hc)), mul_zero]
    · rw [if_neg hl, zero_mul]

/-- Completeness of an extended measurement pair. -/
theorem extend_pair_complete {m n : ℕ} {pos : Fin m → Fin n}
    (hinj : Function.Injective pos) {M0 M1 : Matrix (Idx m) (Idx m) Q2}
    (hM : M0ᵀ * M0 + M1ᵀ * M1 = 1) :
    (extend pos M0)ᵀ * extend pos M0 + (extend pos M1)ᵀ * extend pos M1 = 1 := by
  rw [extend_transpose, extend_transpose, extend_mul hinj, extend_mul hinj,
    ← extend_add, hM, extend_one]

/-- An extended unitary stays an isometry. -/
theorem extend_unitary_complete {m n : ℕ} {pos : Fin m → Fin n}
    (hinj : Function.Injective pos) {U : Matrix (Idx m) (Idx m) Q2}
    (hU : Uᵀ * U = 1) : (extend pos U)ᵀ * extend pos U = 1 := by
  rw [extend_transpose, extend_mul hinj, hU, extend_one]

/-- The reset family `Kₖ = |0⟩⟨k|` is complete on the sub-register:
`Σₖ KₖᵀKₖ = I`. -/
theorem ket0bra_complete {m : ℕ} :
    ∑ k : Idx m, (ket0bra k)ᵀ * ket0bra k = (1 : Matrix (Idx m) (Idx m) Q2) := by
  have h1 : ∀ k : Idx m, (ket0bra (m := m) k)ᵀ * ket0bra k =
      Matrix.stdBasisMatrix k k 1 := by
    intro k
    unfold ket0bra
    have ht : (Matrix.stdBasisMatrix (fun _ => false : Idx m) k (1 : Q2))ᵀ =
        Matrix.stdBasisMatrix k (fun _ => false) 1 := by
      ext x y
      simp [Matrix.transpose_apply, Matrix.stdBasisMatrix, and_comm]
    rw [ht, Matrix.StdBasisMatrix.mul_same, one_mul]
  rw [Finset.sum_congr rfl fun k _ => h1 k]
  ext i j
  rw [Matrix.sum_apply]
  by_cases hij : i = j
  · subst hij
    rw [Matrix.one_apply_eq]
    rw [Finset.sum_eq_single i
      (fun k _ hk => Matrix.StdBasisMatrix.apply_of_ne _ _ _ _ _
        (by rintro ⟨hc, _⟩; exact hk hc))
      (fun hmem => absurd (Finset.mem_univ i) hmem)]
    exact Matrix.StdBasisMatrix.apply_same i i 1
  · rw [Matrix.one_apply_ne hij]
    apply Finset.sum_eq_zero
    intro k _
    refine Matrix.StdBasisMatrix.apply_of_ne _ _ _ _ _ ?_
    rintro ⟨rfl, rfl⟩
    exact hij rfl

/-- Completeness of the extended reset family on the full register. -/
theorem initK_complete {m n : ℕ} {pos : Fin m → Fin n}
    (hinj : Function.Injective pos) :
    ∑ k : Idx m, (extend pos (ket0bra k))ᵀ * extend pos (ket0bra k) = (1 : Mat n) := by
  have h1 : ∀ k : Idx m, (extend pos (ket0bra k))ᵀ * extend pos (ket0bra k) =
      extend pos ((ket0bra k)ᵀ * ket0bra k) := fun k => by
    rw [extend_transpose, extend_mul hinj]
  rw [Finset.sum_congr rfl fun k _ => h1 k, ← extend_sum, ket0bra_complete, extend_one]

/-! ## Theorems: the transformer preserves valid Hermitian predicates -/

/-- Every element of a computed precondition set of a well-formed statement
is a valid Hermitian predicate, provided the postcondition set consists of
valid Hermitian predicates. -/
theorem wp_hermInUnit {n : ℕ} (st : Settings) :
    ∀ S : Stmt n, Wf S →
      ∀ Q W : PredSet n, (∀ H ∈ Q, hermInUnit H) → wp st S Q = .ok W →
        ∀ H ∈ W, hermInUnit H := by
  intro S hS
  induction hS with
  | skip =>
      intro Q W hQ hwp H hH
      simp only [wp, Except.ok.injEq] at hwp
      subst hwp
      exact hQ H hH
  | abort =>
      intro Q W hQ hwp H hH
      simp only [wp, Except.ok.injEq] at hwp
      subst hwp
      simp only [List.mem_singleton] at hH
      subst hH
      exact hermInUnit_one
  | init m pos hinj =>
      intro Q W hQ hwp H hH
      simp only [wp, Except.ok.injEq] at hwp
      subst hwp
      obtain ⟨q, hq, rfl⟩ := List.mem_map.mp hH
      unfold initSand
      exact hermInUnit_sandwich_family _ (initK_complete hinj) (hQ q hq)
  | unitary m pos U hinj hU =>
      intro Q W hQ hwp H hH
      simp only [wp, Except.ok.injEq] at hwp
      subst hwp
      obtain ⟨q, hq, rfl⟩ := List.mem_map.mp hH
      exact hermInUnit_sandwich_one _ (extend_unitary_complete hinj hU) (hQ q hq)
  | ifstmt m pos M0 M1 s1 s2 hinj hM hw1 hw2 ih1 ih2 =>
      intro Q W hQ hwp H hH
      simp only [wp] at hwp
      cases h1 : wp st s1 Q with
      | error e => rw [h1] at hwp; simp at hwp
      | ok W1 =>
          rw [h1] at hwp
          simp only [ebind_ok] at hwp
          cases h2 : wp st s2 Q with
          | error e => rw [h2] at hwp; simp at hwp
          | ok W2 =>
              rw [h2] at hwp
              simp only [ebind_ok, Except.ok.injEq] at hwp
              subst hwp
              obtain ⟨a, ha, b, hb, rfl⟩ : ∃ a ∈ W1, ∃ b ∈ W2,
                  (extend pos M0)ᵀ * a * extend pos M0 +
                  (extend pos M1)ᵀ * b * extend pos M1 = H := by
                have := hH
                simp only [sandwichPairs, List.mem_flatMap, List.mem_map] at this
                obtain ⟨a, ha, b, hb, hab⟩ := this
                exact ⟨a, ha, b, hb, hab⟩
              exact hermInUnit_sandwich_pair _ _ (extend_pair_complete hinj hM)
                (ih1 Q W1 hQ h1 a ha) (ih2 Q W2 hQ h2 b hb)
  | whilestmt m pos M0 M1 J body hinj hM hJ hwb ih =>
      intro Q W hQ hwp H hH
      simp only [wp] at hwp
      cases hb : wp st body J with
      | error e => rw [hb] at hwp; simp at hwp
      | ok WB =>
          rw [hb] at hwp
          simp only [ebind_ok] at hwp
          split at hwp
          · simp only [Except.ok.injEq] at hwp
            subst hwp
            exact hJ H hH
          · simp at hwp
  | choice s1 s2 hw1 hw2 ih1 ih2 =>
      intro Q W hQ hwp H hH
      simp only [wp] at hwp
      cases h1 : wp st s1 Q with
      | error e => rw [h1] at hwp; simp at hwp
      | ok W1 =>
          rw [h1] at hwp
          simp only [ebind_ok] at hwp
          cases h2 : wp st s2 Q with
          | error e => rw [h2] at hwp; simp at hwp
          | ok W2 =>
              rw [h2] at hwp
              simp only [ebind_ok, Except.ok.injEq] at hwp
              subst hwp
              rcases List.mem_append.mp hH with h | h
              · exact ih1 Q W1 hQ h1 H h
              · exact ih2 Q W2 hQ h2 H h
  | seq s1 s2 hw1 hw2 ih1 ih2 =>
      intro Q W hQ hwp H hH
      simp only [wp] at hwp
      cases h2 : wp st s2 Q with
      | error e => rw [h2] at hwp; simp at hwp
      | ok Qmid =>
          rw [h2] at hwp
          simp only [ebind_ok] at hwp
          exact ih1 Qmid W (ih2 Q Qmid hQ h2) hwp H hH
  | prfref P Qp hP =>
      intro Q W hQ hwp H hH
      simp only [wp] at hwp
      split at hwp
      · simp only [Except.ok.injEq] at hwp
        subst hwp
        exact hP H hH
      · simp at hwp

/-- Claim C5. For every program statement `S` and every postcondition set `Q`
whose elements are Hermitian operators in `[0, I]`, every element of the
computed precondition set `wp(S, Q)` is Hermitian and lies in `[0, I]`; in
particular the operators produced by the measurement-sandwich rules for
`if` and `while` are Hermitian-in-`[0,I]` by construction (the two-branch
sum is `M₀ᵀM₀ + M₁ᵀM₁ = I` applied to two elements bounded by `I`). -/
theorem claim_C5 : ∀ (n : ℕ) (st : Settings) (S : Stmt n) (Q W : PredSet n),
    Wf S → (∀ H ∈ Q, hermInUnit H) → wp st S Q = .ok W →
    ∀ H ∈ W, hermInUnit H :=
  fun n st S Q W hS hQ hwp => wp_hermInUnit st S hS Q W hQ hwp

/-- Witness for C5 at a concrete input: the unitary statement `q *= X`
applied to the postcondition `{I}`. -/
theorem claim_C5_witness :
    (Wf (Stmt.unitary 1 posId1 matX) ∧
      ∀ H ∈ ([(1 : Mat 1)] : PredSet 1), hermInUnit H) ∧
    ∀ H ∈ [(extend posId1 matX)ᵀ * (1 : Mat 1) * extend posId1 matX],
      hermInUnit H := by
  have hwf : Wf (Stmt.unitary 1 posId1 matX) :=
    Wf.unitary 1 posId1 matX (by decide) (by decide)
  have hQ : ∀ H ∈ ([(1 : Mat 1)] : PredSet 1), hermInUnit H := by
    intro H hH
    simp only [List.mem_singleton] at hH
    subst hH
    exact hermInUnit_one
  exact ⟨⟨hwf, hQ⟩,
    claim_C5 1 defaultSettings (Stmt.unitary 1 posId1 matX) [(1 : Mat 1)] _ hwf hQ rfl⟩

/-! ## Theorems: accepted placements are duplicate-free -/

/-- Soundness of the identifier-list check. -/
theorem idsOK_sound (qs : List String) (h : idsOK qs = true) : qs.Nodup :=
  of_decide_eq_true h

/-- Soundness of the operator-reference check for its placement. -/
theorem hermOK_sound (env : String → Option ℕ) (h : HermRef)
    (hc : hermOK env h = true) : h.2.Nodup := by
  unfold hermOK at hc
  rw [Bool.and_eq_true] at hc
  exact idsOK_sound h.2 hc.1

/-- Every placement in a sentence accepted by the semantic analysis is
duplicate-free. -/
theorem checkS_placements (env : String → Option ℕ) :
    ∀ b : SStmt, checkS env b = true →
      ∀ pl ∈ placementsS b, pl.Nodup := by
  intro b
  induction b with
  | skip => intro _ pl hpl; simp [placementsS] at hpl
  | abort => intro _ pl hpl; simp [placementsS] at hpl
  | init qs =>
      intro h pl hpl
      simp only [placementsS, List.mem_singleton] at hpl
      subst hpl
      exact idsOK_sound pl (by simpa [checkS] using h)
  | unitary qs g =>
      intro h pl hpl
      simp only [placementsS, List.mem_singleton] at hpl
      subst hpl
      simp only [checkS, Bool.and_eq_true] at h
      exact idsOK_sound pl h.1
  | ifstmt g qs b1 b2 ih1 ih2 =>
      intro h pl hpl
      simp only [checkS, Bool.and_eq_true] at h
      simp only [placementsS, List.mem_cons, List.mem_append] at hpl
      rcases hpl with rfl | h1 | h2
      · exact idsOK_sound pl h.1.1.1
      · exact ih1 h.1.2 pl h1
      · exact ih2 h.2 pl h2
  | whilestmt inv g qs b ih =>
      intro h pl hpl
      simp only [checkS, Bool.and_eq_true] at h
      simp only [placementsS, List.mem_append, List.mem_cons, List.mem_map] at hpl
      rcases hpl with ⟨hr, hmem, rfl⟩ | rfl | hb
      · exact hermOK_sound env hr (List.all_eq_true.mp h.1.1.1 hr hmem)
      · exact idsOK_sound pl h.1.1.2
      · exact ih h.2 pl hb
  | choice b1 b2 ih1 ih2 =>
      intro h pl hpl
      simp only [checkS, Bool.and_eq_true] at h
      rcases List.mem_append.mp hpl with h1 | h2
      · exact ih1 h.1 pl h1
      · exact ih2 h.2 pl h2
  | seq b1 b2 ih1 ih2 =>
      intro h pl hpl
      simp only [checkS, Bool.and_eq_true] at h
      rcases List.mem_append.mp hpl with h1 | h2
      · exact ih1 h.1 pl h1
      · exact ih2 h.2 pl h2
  | prfref p qs =>
      intro h pl hpl
      simp only [placementsS, List.mem_singleton] at hpl
      subst hpl
      simp only [checkS, Bool.and_eq_true] at h
      exact idsOK_sound pl h.1
  | assert hs =>
      intro h pl hpl
      simp only [placementsS, List.mem_map] at hpl
      obtain ⟨hr, hmem, rfl⟩ := hpl
      exact hermOK_sound env hr
        (List.all_eq_true.mp (by simpa [checkS] using h) hr hmem)

/-- Counterexample to claim C7 as stated: the error-correction-shaped proof
term `ecPT` (declared `proof[q]`, body placing operators on `q1`, `q2` —
exactly the shape of the README's accepted error-correction example and of
`examples/BB84`) passes the semantic analysis, yet its placement
`[q1, q2]` contains the qubit name `q1`, which is not a member of the
declared register `[q]`. -/
theorem claim_C7_counterexample :
    checkPT sampleEnv ecPT = true ∧
    ¬ ∀ pl ∈ placementsS ecPT.body, pl.Nodup ∧ ∀ q ∈ pl, q ∈ ecPT.reg := by
  constructor
  · decide
  · decide

/-- Claim C7 (amended). In every proof term accepted by the verifier's
semantic analysis, every operator placement occurring in a statement is
duplicate-free.  (The analysis does not require placed qubit names to be
members of the identifier list after `proof`: the repository's accepted
examples place operators on qubits outside that list.) -/
theorem claim_C7 : ∀ (env : String → Option ℕ) (pt : SProofTerm),
    checkPT env pt = true →
    ∀ pl ∈ placementsS pt.body, pl.Nodup := by
  intro env pt h
  unfold checkPT at h
  simp only [Bool.and_eq_true] at h
  exact checkS_placements env pt.body h.2

/-- Witness for C7: the error-correction-shaped proof term is accepted and
all of its placements are duplicate-free. -/
theorem claim_C7_witness :
    checkPT sampleEnv ecPT = true ∧
    ∀ pl ∈ placementsS ecPT.body, pl.Nodup :=
  ⟨by decide, claim_C7 sampleEnv ecPT (by decide)⟩
